import Mathlib

/-!
Verification of the fuzzypatch library: a parser for search/replace diff
blocks, a fuzzy line-range locator, and a multi-edit applier.

Modelling conventions:
* Go strings are byte strings; they are modelled as `List Char` (`Str`),
  with one list element per byte and byte length = list length.
* Go `int` is modelled as `Int` (64-bit overflow is irrelevant to the
  quantities involved, except in `atoi` where the `strconv.Atoi` range
  check is modelled explicitly).
* Go `float64` values (similarity scores, thresholds) are modelled as
  exact rationals `ℚ`; the similarity formula `1 - dist/maxLen` is
  computed exactly.
* Fallible operations return `Option`/`Except`.
* Loops are modelled as fuel-indexed structural recursions; the fuel
  passed by the entry points strictly exceeds the number of iterations
  the loop can perform, so the fuel-exhaustion branch is unreachable.
-/

abbrev Str := List Char

def str (s : String) : Str := s.toList

/-- Model of `strings.SplitAfter(s, "\n")`: split after every newline, each piece
keeping its trailing newline; the final piece is the remainder (possibly
empty).  Always returns at least one piece. -/
def splitAfterNL : Str → List Str
  | [] => [[]]
  | c :: cs =>
    if c = '\n' then [c] :: splitAfterNL cs
    else
      match splitAfterNL cs with
      | [] => [[c]]
      | t :: ts => (c :: t) :: ts

/-- Function `trimSplit` from the source: `strings.SplitAfter(s, "\n")` with the
trailing empty piece (present when `s` ends in a newline) dropped. -/
def trimSplit (s : Str) : List Str :=
  let lines := splitAfterNL s
  if lines.getLast? = some [] then lines.dropLast else lines

/-- The prefix-sum byte-offset table from `Search`:
`offsetAt lines i` is the starting byte offset of line `i`
(`offsets[i]` in the source). -/
def offsetAt (lines : List Str) (i : Nat) : Nat :=
  ((lines.take i).map List.length).sum

/-- Model of `strings.Join(lines[l:l+n], "")`: the joined text of `n` lines
starting at line `l`. -/
def chunkAt (lines : List Str) (l n : Nat) : Str :=
  ((lines.drop l).take n).flatten

/-- Modelled from the spec: the external dependency
`github.com/agnivade/levenshtein`'s `ComputeDistance` is not part of this
repository's sources; per the spec it is the standard single-character
insert/delete/substitute edit distance over the raw bytes of the two
strings. -/
def levDist : Str → Str → Nat
  | [], b => b.length
  | a :: as, [] => (a :: as).length
  | a :: as, b :: bs =>
    if a = b then levDist as bs
    else 1 + min (levDist as (b :: bs)) (min (levDist (a :: as) bs) (levDist as bs))
termination_by a b => (a.length, b.length)

/-- Function `similarity` from the source: `1.0` when both strings are empty,
otherwise `1 - dist/max(len(a), len(b))`. -/
def similarity (a b : Str) : ℚ :=
  if a.length = 0 ∧ b.length = 0 then 1
  else 1 - (levDist a b : ℚ) / (max a.length b.length : ℚ)

/-- Type `Diff`: a parsed search/replace directive.  `Line` is the 1-based
line-number hint. -/
structure Diff where
  Line : Int
  Search : Str
  Replace : Str
deriving DecidableEq

/-- Type `Edit`: a byte-offset replacement, `[Start, End)` replaced by `Text`. -/
structure Edit where
  Start : Int
  End : Int
  Text : Str
deriving DecidableEq

def docLines (source : Str) : List Str := trimSplit source

def nSearch (diff : Diff) : Nat := (trimSplit diff.Search).length

/-- The clamped zero-based starting index from `Search`:
`max(0, min(diff.Line - 1, len(lines)-1))`. -/
def clampedStart (source : Str) (diff : Diff) : Nat :=
  (max 0 (min (diff.Line - 1) (((docLines source).length : Int) - 1))).toNat

/-- The acceptance test of the search loop: the candidate chunk of `n`
lines starting at line `l` has `similarity ≥ threshold`. -/
def acceptCand (lines : List Str) (search : Str) (t : ℚ) (n l : Nat) : Bool :=
  decide (similarity (chunkAt lines l n) search ≥ t)

/-- The `Edit` built by `Search` for an accepted candidate at line `l`:
byte offsets of lines `l` and `l + n`, text `diff.Replace`. -/
def candEdit (lines : List Str) (replace : Str) (n l : Nat) : Edit :=
  ⟨(offsetAt lines l : Int), (offsetAt lines (l + n) : Int), replace⟩

/-- The expanding-radius loop of `Search`.  At each radius the candidate
at `startIdx - radius` is tried first, then (for `radius > 0`) the one at
`startIdx + radius`; a candidate is tried only when its `nSearch` lines
lie inside the document.  The loop stops when neither direction is in
range.  `fuel` strictly exceeds the largest radius the loop can reach
(see `Search`), so the `0` branch is unreachable. -/
def searchLoop (lines : List Str) (search replace : Str) (n startIdx : Nat) (t : ℚ) :
    Nat → Nat → Option Edit
  | 0, _ => none
  | fuel + 1, radius =>
    let left : Int := (startIdx : Int) - (radius : Int)
    let right : Nat := startIdx + radius
    if (0 ≤ left ∧ left + (n : Int) ≤ (lines.length : Int)) ∧
        acceptCand lines search t n left.toNat then
      some (candEdit lines replace n left.toNat)
    else if (0 < radius ∧ right + n ≤ lines.length) ∧ acceptCand lines search t n right then
      some (candEdit lines replace n right)
    else if (0 ≤ left ∧ left + (n : Int) ≤ (lines.length : Int)) ∨
        (0 < radius ∧ right + n ≤ lines.length) then
      searchLoop lines search replace n startIdx t fuel (radius + 1)
    else none

/-- Function `Search` from the source: split the document, reject empty documents,
empty search texts and search texts spanning more lines than the document,
clamp the hint, then run the expanding-radius loop. -/
def Search (source : Str) (diff : Diff) (threshold : ℚ) : Option Edit :=
  let lines := docLines source
  if lines.length = 0 then none
  else
    let n := nSearch diff
    if n = 0 ∨ lines.length < n then none
    else
      let startIdx := clampedStart source diff
      searchLoop lines diff.Search diff.Replace n startIdx threshold
        (startIdx + lines.length + 2) 0

/-- The in-bounds candidates examined at one radius, above-then-below. -/
def perRadius (lines : List Str) (n startIdx radius : Nat) : List Nat :=
  let left : Int := (startIdx : Int) - (radius : Int)
  let right : Nat := startIdx + radius
  (if 0 ≤ left ∧ left + (n : Int) ≤ (lines.length : Int) then [left.toNat] else []) ++
    (if 0 < radius ∧ right + n ≤ lines.length then [right] else [])

/-- The full sequence of candidate start lines examined by the search
loop from `radius` on, in examination order, stopping at the first radius
with no in-bounds candidate. -/
def candsLoop (lines : List Str) (n startIdx : Nat) : Nat → Nat → List Nat
  | 0, _ => []
  | fuel + 1, radius =>
    let pr := perRadius lines n startIdx radius
    if pr = [] then [] else pr ++ candsLoop lines n startIdx fuel (radius + 1)

/-- The candidate start lines `Search` examines, in order. -/
def searchCandidates (source : Str) (diff : Diff) : List Nat :=
  let lines := docLines source
  if lines.length = 0 then []
  else
    let n := nSearch diff
    if n = 0 ∨ lines.length < n then []
    else
      let startIdx := clampedStart source diff
      candsLoop lines n startIdx (startIdx + lines.length + 2) 0

/-- Claim-side definition: the full above-then-below increasing-radius
enumeration of all in-bounds candidates, with no early stop.  The radius
range `startIdx + len + 2` covers every radius that can produce an
in-bounds candidate. -/
def searchOrderFull (source : Str) (diff : Diff) : List Nat :=
  let lines := docLines source
  if lines.length = 0 then []
  else
    let n := nSearch diff
    if n = 0 ∨ lines.length < n then []
    else
      let startIdx := clampedStart source diff
      (List.range (startIdx + lines.length + 2)).flatMap (perRadius lines n startIdx)

/-- Claim-side definition: the above-then-below increasing-radius
enumeration, stopping at the first radius at which neither the above nor
the below candidate lies within the document's line bounds. -/
def searchOrderStopped (source : Str) (diff : Diff) : List Nat :=
  let lines := docLines source
  if lines.length = 0 then []
  else
    let n := nSearch diff
    if n = 0 ∨ lines.length < n then []
    else
      let startIdx := clampedStart source diff
      ((List.range (startIdx + lines.length + 2)).takeWhile
        (fun r => !(perRadius lines n startIdx r).isEmpty)).flatMap (perRadius lines n startIdx)

/-- Claim-side definition: the first candidate of `cands` (in order)
whose similarity to `diff.Search` reaches the threshold, as an `Edit`. -/
def firstAcceptIn (cands : List Nat) (source : Str) (diff : Diff) (t : ℚ) : Option Edit :=
  (cands.find? (fun l => acceptCand (docLines source) diff.Search t (nSearch diff) l)).map
    (candEdit (docLines source) diff.Replace (nSearch diff))

/-- The two error classes of `Apply`:
`invalid edit range [s,e)` and `overlapping edits at [s,e)`. -/
inductive ApplyErr where
  | invalidRange (s e : Int)
  | overlap (s e : Int)
deriving DecidableEq

def isOverlapErr : ApplyErr → Bool
  | .overlap _ _ => true
  | .invalidRange _ _ => false

/-- The splice loop of `Apply`: edits are applied highest-start first;
each edit's range is validated against the current data, then against
`lastEnd` (overlap), then `data[:Start] + Text + data[End:]` is spliced. -/
def applyLoop : Str → Int → List Edit → Except ApplyErr Str
  | data, _, [] => .ok data
  | data, lastEnd, e :: rest =>
    if e.Start < 0 ∨ e.End < e.Start ∨ (data.length : Int) < e.End then
      .error (.invalidRange e.Start e.End)
    else if lastEnd < e.End then
      .error (.overlap e.Start e.End)
    else
      applyLoop (data.take e.Start.toNat ++ e.Text ++ data.drop e.End.toNat) e.Start rest

/-- The sort order of `Apply`: descending by `Start` (the Go comparator
is `edits[i].Start > edits[j].Start`). -/
def editGE (a b : Edit) : Prop := b.Start ≤ a.Start

instance : DecidableRel editGE := fun a b => inferInstanceAs (Decidable (b.Start ≤ a.Start))

/-- Model of `sort.Slice(edits, ...)` with the descending-`Start` comparator.
`sort.Slice` is unstable; for slices this short Go uses insertion sort,
which is stable, and the model fixes that (stable) order. -/
def sortEdits (edits : List Edit) : List Edit := List.insertionSort editGE edits

/-- Function `Apply` from the source: empty edit lists return the document
unchanged; otherwise edits are sorted by descending `Start` and spliced
back-to-front, validating bounds and overlap. -/
def Apply (source : Str) (edits : List Edit) : Except ApplyErr Str :=
  if edits.isEmpty then .ok source
  else applyLoop source (source.length : Int) (sortEdits edits)

/-! ### The lexer and parser -/

inductive TokenType where
  | startSearch | textSeparator | endReplace | text | invalid | eof
deriving DecidableEq

structure Token where
  typ : TokenType
  line : Nat
  text : Str
deriving DecidableEq

def startSearchMarker : Str := str "<<<<<<< SEARCH"
def sepMarker : Str := str "======="
def endReplaceMarker : Str := str ">>>>>>> REPLACE"
def lineColonTag : Str := str "line:"

/-- Model of `strings.TrimRight(line, "\r\n")`. -/
def trimRightCRLF (l : Str) : Str :=
  (l.reverse.dropWhile (fun c => c == '\r' || c == '\n')).reverse

/-- The ASCII cases of `unicode.IsSpace`; the inputs of interest contain
no non-ASCII whitespace. -/
def isSpaceChar (c : Char) : Bool :=
  c == ' ' || c == '\t' || c == '\n' || c == '\x0b' || c == '\x0c' || c == '\r'

/-- Model of `strings.TrimSpace`. -/
def trimSpace (l : Str) : Str :=
  ((l.dropWhile isSpaceChar).reverse.dropWhile isSpaceChar).reverse

/-- Model of `strings.CutPrefix`: `(rest, true)` when `pre` is a prefix of `s`,
otherwise `(s, false)`. -/
def dropPrefixOf (s pre : Str) : Str × Bool :=
  if pre.isPrefixOf s then (s.drop pre.length, true) else (s, false)

/-- Model of `strconv.Atoi`: optional sign, one or more decimal digits, 64-bit
range check (out-of-range input is an error). -/
def digitsVal (l : Str) : Option Nat :=
  if l ≠ [] ∧ l.all Char.isDigit then
    some (l.foldl (fun acc c => acc * 10 + (c.toNat - 48)) 0)
  else none

def atoi (s : Str) : Option Int :=
  let sgn : Int := if s.head? = some '-' then -1 else 1
  let ds : Str := if s.head? = some '+' ∨ s.head? = some '-' then s.tail else s
  match digitsVal ds with
  | none => none
  | some v =>
    let k : Int := sgn * v
    if -9223372036854775808 ≤ k ∧ k < 9223372036854775808 then some k else none

/-- The lexer's per-line classification: start-search marker by prefix,
separator and end-replace markers by CR/LF-trimmed equality, otherwise a
text line. -/
def classifyLine (line : Str) (lineNo : Nat) : Token :=
  if startSearchMarker.isPrefixOf line then ⟨.startSearch, lineNo, line⟩
  else if trimRightCRLF line = sepMarker then ⟨.textSeparator, lineNo, line⟩
  else if trimRightCRLF line = endReplaceMarker then ⟨.endReplace, lineNo, line⟩
  else ⟨.text, lineNo, line⟩

/-- The per-line loop of `tokenize`, carrying the running line number. -/
def tokenizeLines : Nat → List Str → List Token
  | _, [] => [⟨.eof, 0, []⟩]
  | i, l :: ls => classifyLine l i :: tokenizeLines (i + 1) ls

/-- Function `tokenize`: classify each line of the input (`strings.Lines`, i.e.
lines with terminators kept and no empty trailing line), then a synthetic
EOF token. -/
def tokenize (input : Str) : List Token :=
  tokenizeLines 0 (trimSplit input)

/-- The parser's cursor: the current token and the remaining stream. -/
structure PState where
  cur : Token
  rest : List Token
deriving DecidableEq

/-- Method `parser.read`: return the current token and advance; when the stream
is exhausted the current token becomes `invalid`. -/
def pRead (s : PState) : Token × PState :=
  match s.rest with
  | [] => (s.cur, ⟨⟨.invalid, 0, []⟩, []⟩)
  | t :: ts => (s.cur, ⟨t, ts⟩)

inductive ParseErr where
  | expected (want got : TokenType) (text : Str) (line : Nat)
  | badHint (text : Str)
deriving DecidableEq

/-- Method `parser.expect`: read one token and require its type. -/
def pExpect (typ : TokenType) (s : PState) : Except ParseErr Token × PState :=
  let (tok, s') := pRead s
  if tok.typ = typ then (.ok tok, s')
  else (.error (.expected typ tok.typ tok.text tok.line), s')

/-- The leading loop of `parseStartSearch`: skip blank text lines.
`fuel` exceeds the number of remaining tokens, so the `0` branch is
unreachable. -/
def skipBlank : Nat → PState → PState
  | 0, s => s
  | fuel + 1, s =>
    if s.cur.typ = TokenType.text ∧ trimSpace s.cur.text = [] then
      skipBlank fuel (pRead s).2
    else s

/-- The body-collection loops of `parseDiff`: accumulate consecutive text
tokens verbatim. -/
def collectText : Nat → PState → Str × PState
  | 0, s => ([], s)
  | fuel + 1, s =>
    if s.cur.typ = TokenType.text then
      let (tok, s') := pRead s
      let (txt, s'') := collectText fuel s'
      (tok.text ++ txt, s'')
    else ([], s)

/-- Method `parser.parseStartSearch`: skip blank lines, require a start-search
marker, cut the `line:` tag from its trimmed suffix and parse the
integer. -/
def parseStartSearch (s : PState) : Except ParseErr Int × PState :=
  let s0 := skipBlank (s.rest.length + 1) s
  match pExpect TokenType.startSearch s0 with
  | (.error e, s1) => (.error e, s1)
  | (.ok tok, s1) =>
    let suffix := (dropPrefixOf tok.text startSearchMarker).1
    match dropPrefixOf (trimSpace suffix) lineColonTag with
    | (_, false) => (.error (.badHint tok.text), s1)
    | (lineStr, true) =>
      match atoi lineStr with
      | none => (.error (.badHint tok.text), s1)
      | some k => (.ok k, s1)

/-- Method `parser.parseDiff`.  Note the final `expect`: on a missing end-replace
marker the source returns `Diff{}, nil`, i.e. it discards the error and
yields a zero-valued diff. -/
def parseDiff (s : PState) : Except ParseErr Diff × PState :=
  match parseStartSearch s with
  | (.error e, s1) => (.error e, s1)
  | (.ok line, s1) =>
    let (searchTxt, s2) := collectText (s1.rest.length + 1) s1
    match pExpect TokenType.textSeparator s2 with
    | (.error e, s3) => (.error e, s3)
    | (.ok _, s3) =>
      let (replaceTxt, s4) := collectText (s3.rest.length + 1) s3
      match pExpect TokenType.endReplace s4 with
      | (.error _, s5) => (.ok ⟨0, [], []⟩, s5)
      | (.ok _, s5) => (.ok ⟨line, searchTxt, replaceTxt⟩, s5)

/-- The main loop of `Parse`: parse diffs until the current token is EOF;
any propagated error aborts with no diffs.  `fuel` exceeds the number of
loop iterations possible, so the `0` branch is unreachable. -/
def parseLoop : Nat → PState → Except ParseErr (List Diff)
  | 0, _ => .ok []
  | fuel + 1, s =>
    if s.cur.typ = TokenType.eof then .ok []
    else
      match parseDiff s with
      | (.error e, _) => .error e
      | (.ok d, s') =>
        match parseLoop fuel s' with
        | .error e => .error e
        | .ok ds => .ok (d :: ds)

/-- Function `Parse` from the source: tokenize, prime the cursor, loop. -/
def Parse (input : Str) : Except ParseErr (List Diff) :=
  match tokenize input with
  | [] => .ok []
  | t :: ts => parseLoop (ts.length + 2) ⟨t, ts⟩

/-- A diff block whose `line:` hint suffix is the string `s`, with fixed
one-line search and replace bodies. -/
def mkDiffText (s : Str) : Str :=
  str "<<<<<<< SEARCH line:" ++ s ++ str "\nx\n=======\ny\n>>>>>>> REPLACE\n"

/-! ### Basic lemmas about the split and offset functions -/

theorem splitAfterNL_ne_nil (s : Str) : splitAfterNL s ≠ [] := by
  cases s with
  | nil => simp [splitAfterNL]
  | cons c cs =>
    simp only [splitAfterNL]
    split
    · simp
    · split <;> simp

theorem flatten_splitAfterNL (s : Str) : (splitAfterNL s).flatten = s := by
  induction s with
  | nil => simp [splitAfterNL]
  | cons c cs ih =>
    simp only [splitAfterNL]
    split
    · rename_i h
      simp [h, ih]
    · cases h2 : splitAfterNL cs with
      | nil => exact absurd h2 (splitAfterNL_ne_nil cs)
      | cons t ts =>
        rw [h2] at ih
        simp only [List.flatten_cons] at ih ⊢
        simp [ih]

theorem flatten_trimSplit (s : Str) : (trimSplit s).flatten = s := by
  simp only [trimSplit]
  have hne := splitAfterNL_ne_nil s
  split
  · rename_i h
    have hlast : (splitAfterNL s).getLast hne = [] := by
      rw [List.getLast?_eq_getLast _ hne] at h
      exact Option.some_injective _ h
    have h2 : (splitAfterNL s).dropLast ++ [(splitAfterNL s).getLast hne] = splitAfterNL s :=
      List.dropLast_append_getLast hne
    have := flatten_splitAfterNL s
    rw [← h2, hlast] at this
    simpa using this
  · exact flatten_splitAfterNL s

theorem offsetAt_mono (lines : List Str) {i j : Nat} (h : i ≤ j) :
    offsetAt lines i ≤ offsetAt lines j := by
  have key : offsetAt lines j
      = offsetAt lines i + (((lines.take j).drop i).map List.length).sum := by
    unfold offsetAt
    conv_lhs => rw [← List.take_append_drop i (lines.take j)]
    rw [List.map_append, List.sum_append, List.take_take, Nat.min_eq_left h]
  omega

theorem offsetAt_length (lines : List Str) :
    offsetAt lines lines.length = lines.flatten.length := by
  unfold offsetAt
  rw [List.take_length, List.length_flatten]

theorem levDist_self (a : Str) : levDist a a = 0 := by
  induction a with
  | nil => simp [levDist]
  | cons c cs ih => simp [levDist, ih]

theorem similarity_self (a : Str) : similarity a a = 1 := by
  unfold similarity
  rcases eq_or_ne a [] with h | h
  · simp [h]
  · have hl : ¬ a.length = 0 := by simpa using h
    simp [hl, levDist_self]

theorem find?_mono_idx {α : Type} [DecidableEq α] {p q : α → Bool}
    (hpq : ∀ x, p x = true → q x = true) :
    ∀ (l : List α) (a : α), l.find? p = some a →
      ∃ b, l.find? q = some b ∧ l.indexOf b ≤ l.indexOf a := by
  intro l
  induction l with
  | nil => intro a h; simp [List.find?] at h
  | cons x xs ih =>
    intro a h
    by_cases hq : q x = true
    · exact ⟨x, by simp [List.find?_cons, hq], by simp⟩
    · have hp : ¬ p x = true := fun hp => hq (hpq x hp)
      rw [List.find?_cons_of_neg _ (by simpa using hp)] at h
      obtain ⟨b, hb, hidx⟩ := ih a h
      have hqb : q b = true := List.find?_some hb
      have hpa : p a = true := List.find?_some h
      have hax : a ≠ x := fun e => hp (e ▸ hpa)
      have hbx : b ≠ x := fun e => hq (e ▸ hqb)
      refine ⟨b, ?_, ?_⟩
      · rw [List.find?_cons_of_neg _ (by simpa using hq)]
        exact hb
      · rw [List.indexOf_cons_ne _ hbx.symm, List.indexOf_cons_ne _ hax.symm]
        omega

/-! ### The search loop as a first-match scan over the candidate order -/

theorem searchLoop_eq_find (lines : List Str) (se re : Str) (n s : Nat) (t : ℚ) :
    ∀ fuel radius, searchLoop lines se re n s t fuel radius =
      ((candsLoop lines n s fuel radius).find? (acceptCand lines se t n)).map
        (candEdit lines re n) := by
  intro fuel
  induction fuel with
  | zero => intro radius; simp [searchLoop, candsLoop]
  | succ f ih =>
    intro radius
    simp only [searchLoop, candsLoop, perRadius]
    split_ifs with h1 h2 h3 h4 h5 h6 h7 h8 h9 h10 h11 h12 <;>
      simp_all [List.find?_cons]

theorem search_eq_find (source : Str) (diff : Diff) (t : ℚ) :
    Search source diff t = firstAcceptIn (searchCandidates source diff) source diff t := by
  simp only [Search, searchCandidates, firstAcceptIn]
  split
  · simp
  · split
    · simp
    · exact searchLoop_eq_find _ _ _ _ _ _ _ _

theorem candsLoop_eq_takeWhile (lines : List Str) (n s : Nat) :
    ∀ fuel radius, candsLoop lines n s fuel radius =
      ((List.range' radius fuel).takeWhile
        (fun r => !(perRadius lines n s r).isEmpty)).flatMap (perRadius lines n s) := by
  intro fuel
  induction fuel with
  | zero => intro radius; simp [candsLoop]
  | succ f ih =>
    intro radius
    rw [List.range'_succ]
    simp only [candsLoop, List.takeWhile_cons]
    by_cases hpr : perRadius lines n s radius = []
    · simp [hpr]
    · have hne : (perRadius lines n s radius).isEmpty = false := by
        simpa [List.isEmpty_iff] using hpr
      simp [hpr, hne, ih]

theorem searchCandidates_eq_stopped (source : Str) (diff : Diff) :
    searchCandidates source diff = searchOrderStopped source diff := by
  simp only [searchCandidates, searchOrderStopped]
  split
  · rfl
  · split
    · rfl
    · rw [candsLoop_eq_takeWhile, List.range_eq_range']

theorem mem_perRadius_bound (lines : List Str) (n s r : Nat) :
    ∀ l ∈ perRadius lines n s r, l + n ≤ lines.length := by
  intro l hl
  simp only [perRadius, List.mem_append] at hl
  rcases hl with h | h
  · split at h
    · rename_i hc
      simp only [List.mem_singleton] at h
      subst h
      omega
    · simp at h
  · split at h
    · rename_i hc
      simp only [List.mem_singleton] at h
      subst h
      omega
    · simp at h

theorem mem_candsLoop_bound (lines : List Str) (n s : Nat) :
    ∀ fuel radius, ∀ l ∈ candsLoop lines n s fuel radius, l + n ≤ lines.length := by
  intro fuel
  induction fuel with
  | zero => intro radius l hl; simp [candsLoop] at hl
  | succ f ih =>
    intro radius l hl
    simp only [candsLoop] at hl
    split at hl
    · simp at hl
    · rw [List.mem_append] at hl
      rcases hl with h | h
      · exact mem_perRadius_bound lines n s radius l h
      · exact ih (radius + 1) l h

theorem mem_searchCandidates_bound (source : Str) (diff : Diff) :
    ∀ l ∈ searchCandidates source diff, l + nSearch diff ≤ (docLines source).length := by
  intro l hl
  simp only [searchCandidates] at hl
  split at hl
  · simp at hl
  · split at hl
    · simp at hl
    · exact mem_candsLoop_bound _ _ _ _ _ l hl

/-- The radius-0 exact hit: when the `nSearch` lines at the clamped start
index join to exactly `diff.Search`, the loop accepts immediately with
threshold `1`. -/
theorem search_hit (source : Str) (diff : Diff)
    (hn : 1 ≤ nSearch diff)
    (hb : clampedStart source diff + nSearch diff ≤ (docLines source).length)
    (hc : chunkAt (docLines source) (clampedStart source diff) (nSearch diff) = diff.Search) :
    Search source diff 1 =
      some (candEdit (docLines source) diff.Replace (nSearch diff) (clampedStart source diff)) := by
  have hlen0 : ¬ (docLines source).length = 0 := by omega
  simp only [Search]
  rw [if_neg hlen0,
    if_neg (by omega : ¬(nSearch diff = 0 ∨ (docLines source).length < nSearch diff))]
  rw [show clampedStart source diff + (docLines source).length + 2
      = (clampedStart source diff + (docLines source).length + 1) + 1 from rfl]
  simp only [searchLoop]
  have harg : ((clampedStart source diff : Int) - ((0 : Nat) : Int)).toNat
      = clampedStart source diff := by omega
  have haccept : acceptCand (docLines source) diff.Search 1 (nSearch diff)
      ((clampedStart source diff : Int) - (0 : Nat)).toNat = true := by
    rw [harg]
    simp [acceptCand, hc, similarity_self]
  rw [if_pos ⟨⟨by omega, by push_cast; omega⟩, haccept⟩, harg]

/-! ### Lemmas about `Apply` -/

instance : IsTotal Edit editGE := ⟨fun a b => le_total b.Start a.Start⟩

instance : IsTrans Edit editGE := ⟨fun _ _ _ hab hbc => le_trans hbc hab⟩

/-- Strict version of the sort order, used to identify sorted lists. -/
def editGT (a b : Edit) : Prop := b.Start < a.Start

instance : IsAntisymm Edit editGT :=
  ⟨fun _ _ h1 h2 => absurd (lt_trans h1 h2) (lt_irrefl _)⟩

/-- Two edits whose half-open ranges do not intersect. -/
def disjointE (a b : Edit) : Prop := a.End ≤ b.Start ∨ b.End ≤ a.Start

theorem sortEdits_perm (l : List Edit) : (sortEdits l).Perm l :=
  List.perm_insertionSort _ l

theorem sortEdits_sorted (l : List Edit) : List.Sorted editGE (sortEdits l) :=
  List.sorted_insertionSort _ l

/-- Sorting is a function of the edit multiset when all `Start` offsets
are distinct: any two permutations of the same edits sort identically. -/
theorem sortEdits_eq_of_perm {l₁ l₂ : List Edit} (hperm : l₁.Perm l₂)
    (hne : List.Pairwise (fun a b : Edit => a.Start ≠ b.Start) l₁) :
    sortEdits l₁ = sortEdits l₂ := by
  have hsymm : ∀ {x y : Edit}, x.Start ≠ y.Start → y.Start ≠ x.Start := fun h => h.symm
  have hp : (sortEdits l₁).Perm (sortEdits l₂) :=
    (sortEdits_perm l₁).trans (hperm.trans (sortEdits_perm l₂).symm)
  have hne₁ : List.Pairwise (fun a b : Edit => a.Start ≠ b.Start) (sortEdits l₁) :=
    ((sortEdits_perm l₁).pairwise_iff hsymm).mpr hne
  have hne₂ : List.Pairwise (fun a b : Edit => a.Start ≠ b.Start) (sortEdits l₂) :=
    (hp.pairwise_iff hsymm).mp hne₁
  have hs₁ : List.Sorted editGT (sortEdits l₁) :=
    ((sortEdits_sorted l₁).and hne₁).imp fun h => lt_of_le_of_ne h.1 h.2.symm
  have hs₂ : List.Sorted editGT (sortEdits l₂) :=
    ((sortEdits_sorted l₂).and hne₂).imp fun h => lt_of_le_of_ne h.1 h.2.symm
  exact List.eq_of_perm_of_sorted hp hs₁ hs₂

/-- The splice loop succeeds on a back-to-front chain of in-bounds edits. -/
theorem applyLoop_ok :
    ∀ (edits : List Edit) (data : Str) (lastEnd : Int),
      (∀ e ∈ edits, 0 ≤ e.Start ∧ e.Start ≤ e.End) →
      List.Chain' (fun a b => b.End ≤ a.Start) edits →
      (∀ e ∈ edits.head?, e.End ≤ lastEnd) →
      lastEnd ≤ (data.length : Int) →
      ∃ out, applyLoop data lastEnd edits = .ok out := by
  intro edits
  induction edits with
  | nil => intro data lastEnd _ _ _ _; exact ⟨data, rfl⟩
  | cons e rest ih =>
    intro data lastEnd hb hch hh hle
    have he := hb e (by simp)
    have heEnd : e.End ≤ lastEnd := hh e (by simp)
    have h1 : ¬(e.Start < 0 ∨ e.End < e.Start ∨ (data.length : Int) < e.End) := by omega
    simp only [applyLoop]
    rw [if_neg h1, if_neg (by omega : ¬ lastEnd < e.End)]
    apply ih
    · exact fun f hf => hb f (List.mem_cons_of_mem _ hf)
    · exact hch.tail
    · intro f hf
      cases rest with
      | nil => simp at hf
      | cons r rs =>
        have hrel : r.End ≤ e.Start := (List.chain'_cons.mp hch).1
        simp only [List.head?_cons, Option.mem_some_iff] at hf
        subst hf
        exact hrel
    · have hsn : e.Start.toNat ≤ data.length := by omega
      simp only [List.length_append, List.length_take, List.length_drop,
        Nat.min_eq_left hsn]
      omega

/-- On a two-edit list whose first edit starts before the second ends,
the splice loop always fails: either a range check fails, or the second
edit trips the overlap check against `lastEnd = first.Start`. -/
theorem applyLoop_two_error (d : Str) (lastEnd : Int) (a b : Edit)
    (h : a.Start < b.End) :
    ∃ err, applyLoop d lastEnd [a, b] = .error err := by
  simp only [applyLoop]
  by_cases hv1 : a.Start < 0 ∨ a.End < a.Start ∨ (d.length : Int) < a.End
  · rw [if_pos hv1]; exact ⟨_, rfl⟩
  · rw [if_neg hv1]
    by_cases ho1 : lastEnd < a.End
    · rw [if_pos ho1]; exact ⟨_, rfl⟩
    · rw [if_neg ho1]
      by_cases hv2 : b.Start < 0 ∨ b.End < b.Start ∨
          (((d.take a.Start.toNat ++ a.Text ++ d.drop a.End.toNat)).length : Int) < b.End
      · rw [if_pos hv2]; exact ⟨_, rfl⟩
      · rw [if_neg hv2, if_pos h]; exact ⟨_, rfl⟩

theorem sortEdits_pair (e1 e2 : Edit) :
    sortEdits [e1, e2] = if e2.Start ≤ e1.Start then [e1, e2] else [e2, e1] := by
  simp [sortEdits, List.insertionSort, List.orderedInsert, editGE]

/-- Two edits with intersecting ranges always make `Apply` fail, in
either input order. -/
theorem apply_intersect_error (d : Str) (e1 e2 : Edit)
    (h : max e1.Start e2.Start < min e1.End e2.End) :
    ∃ err, Apply d [e1, e2] = .error err := by
  rw [Apply, if_neg (by simp), sortEdits_pair]
  rcases le_or_lt e2.Start e1.Start with hcase | hcase
  · rw [if_pos hcase]
    exact applyLoop_two_error d _ e1 e2 (by omega)
  · rw [if_neg (by omega)]
    exact applyLoop_two_error d _ e2 e1 (by omega)

/-- Permutation invariance and success of `Apply` on pairwise-disjoint
non-empty in-bounds edits. -/
theorem apply_disjoint_perm (d : Str) {l₁ l₂ : List Edit}
    (hperm : l₁.Perm l₂)
    (hb : ∀ e ∈ l₁, 0 ≤ e.Start ∧ e.Start < e.End ∧ e.End ≤ (d.length : Int))
    (hd : List.Pairwise disjointE l₁) :
    ∃ out, Apply d l₁ = .ok out ∧ Apply d l₂ = .ok out := by
  have hne : List.Pairwise (fun a b : Edit => a.Start ≠ b.Start) l₁ := by
    refine hd.imp_of_mem ?_
    intro a b ha hb' hdis
    rcases hdis with h1 | h1
    · exact ne_of_lt (lt_of_lt_of_le (hb a ha).2.1 h1)
    · exact ne_of_gt (lt_of_lt_of_le (hb b hb').2.1 h1)
  have hsorteq : sortEdits l₁ = sortEdits l₂ := sortEdits_eq_of_perm hperm hne
  have hmp : (sortEdits l₁).Perm l₁ := sortEdits_perm l₁
  have hbm : ∀ e ∈ sortEdits l₁, 0 ≤ e.Start ∧ e.Start < e.End ∧ e.End ≤ (d.length : Int) :=
    fun e he => hb e (hmp.subset he)
  have hdm : List.Pairwise disjointE (sortEdits l₁) :=
    (hmp.pairwise_iff (fun {x y} h => h.symm)).mpr hd
  have hsorted := sortEdits_sorted l₁
  have hpair : List.Pairwise (fun a b : Edit => b.End ≤ a.Start) (sortEdits l₁) := by
    refine (hsorted.and hdm).imp_of_mem ?_
    intro a b ha hb' hcomb
    rcases hcomb.2 with h1 | h1
    · exfalso
      have h2 : a.Start < a.End := (hbm a ha).2.1
      have h3 : b.Start ≤ a.Start := hcomb.1
      omega
    · exact h1
  obtain ⟨out, hout⟩ :=
    applyLoop_ok (sortEdits l₁) d d.length
      (fun e he => ⟨(hbm e he).1, le_of_lt (hbm e he).2.1⟩)
      hpair.chain'
      (fun e he => (hbm e (List.mem_of_mem_head? he)).2.2)
      le_rfl
  by_cases hemp : l₁ = []
  · have hemp₂ : l₂ = [] := List.Perm.eq_nil (hemp ▸ hperm).symm
    subst hemp
    subst hemp₂
    exact ⟨d, rfl, rfl⟩
  · have hemp₂ : l₂ ≠ [] := fun h => hemp (List.Perm.eq_nil (h ▸ hperm))
    refine ⟨out, ?_, ?_⟩
    · rw [Apply, if_neg (by simp [List.isEmpty_iff, hemp])]
      exact hout
    · rw [Apply, if_neg (by simp [List.isEmpty_iff, hemp₂]), ← hsorteq]
      exact hout

/-! ### Lemmas about the lexer and parser -/

theorem isPrefixOf_append_self (a b : Str) : a.isPrefixOf (a ++ b) = true := by
  rw [List.isPrefixOf_iff_prefix]
  exact List.prefix_append a b

theorem dropPrefixOf_append (a b : Str) : dropPrefixOf (a ++ b) a = (b, true) := by
  simp [dropPrefixOf, isPrefixOf_append_self, List.drop_left]

theorem splitAfterNL_append {a : Str} (rest : Str) (h : '\n' ∉ a) :
    splitAfterNL (a ++ '\n' :: rest) = (a ++ ['\n']) :: splitAfterNL rest := by
  induction a with
  | nil => simp [splitAfterNL]
  | cons c cs ih =>
    have hc : ¬ c = '\n' := fun e => h (by simp [e])
    have h' : '\n' ∉ cs := fun hin => h (List.mem_cons_of_mem _ hin)
    simp only [List.cons_append, splitAfterNL, if_neg hc, List.append_eq]
    rw [ih h']

theorem trimSplit_cons_line {a : Str} (rest : Str) (h : '\n' ∉ a) :
    trimSplit (a ++ '\n' :: rest) = (a ++ ['\n']) :: trimSplit rest := by
  obtain ⟨t, ts, hts⟩ : ∃ t ts, splitAfterNL rest = t :: ts := by
    cases h2 : splitAfterNL rest with
    | nil => exact absurd h2 (splitAfterNL_ne_nil rest)
    | cons t ts => exact ⟨t, ts, rfl⟩
  simp only [trimSplit, splitAfterNL_append rest h, hts, List.getLast?_cons_cons]
  split <;> simp

theorem digitsVal_facts {l : Str} {v : Nat} (h : digitsVal l = some v) :
    l ≠ [] ∧ ∀ c ∈ l, c.isDigit = true := by
  simp only [digitsVal] at h
  split at h
  · rename_i hc
    exact ⟨hc.1, by simpa [List.all_eq_true] using hc.2⟩
  · exact absurd h (by simp)

/-- The string shape behind a successful `atoi`: an optional sign
followed by a non-empty run of digits. -/
theorem atoi_split {s : Str} {k : Int} (h : atoi s = some k) :
    ∃ sgn ds, s = sgn ++ ds ∧ (sgn = [] ∨ sgn = ['+'] ∨ sgn = ['-']) ∧
      ds ≠ [] ∧ ∀ c ∈ ds, c.isDigit = true := by
  simp only [atoi] at h
  by_cases hsgn : s.head? = some '+' ∨ s.head? = some '-'
  · rw [if_pos hsgn] at h
    cases s with
    | nil => simp at hsgn
    | cons c cs =>
      match hd : digitsVal (List.tail (c :: cs)) with
      | none => rw [hd] at h; exact absurd h (by simp)
      | some v =>
        rw [hd] at h
        obtain ⟨hne, hdig⟩ := digitsVal_facts hd
        have hc : c = '+' ∨ c = '-' := by
          simpa [List.head?] using hsgn
        rcases hc with hc | hc <;>
          exact ⟨[c], cs, by simp, by simp [hc], by simpa using hne, by simpa using hdig⟩
  · rw [if_neg hsgn] at h
    match hd : digitsVal s with
    | none => rw [hd] at h; exact absurd h (by simp)
    | some v =>
      rw [hd] at h
      obtain ⟨hne, hdig⟩ := digitsVal_facts hd
      exact ⟨[], s, by simp, by simp, hne, hdig⟩

theorem digit_not_space {c : Char} (h : c.isDigit = true) : isSpaceChar c = false := by
  by_contra hs
  have hs' : isSpaceChar c = true := by
    revert hs
    cases isSpaceChar c <;> simp
  have hor : ((((c = ' ' ∨ c = '\t') ∨ c = '\n') ∨ c = '\x0b') ∨ c = '\x0c') ∨ c = '\r' := by
    simpa [isSpaceChar] using hs'
  rcases hor with ((((h1 | h1) | h1) | h1) | h1) | h1 <;> subst h1 <;> simp at h

theorem atoi_char_facts {s : Str} {k : Int} (h : atoi s = some k) :
    s ≠ [] ∧ (∀ c ∈ s, isSpaceChar c = false) ∧ '\n' ∉ s := by
  obtain ⟨sgn, ds, hs, hsgn, hne, hdig⟩ := atoi_split h
  have hchar : ∀ c ∈ s, isSpaceChar c = false := by
    intro c hc
    rw [hs, List.mem_append] at hc
    rcases hc with hc | hc
    · rcases hsgn with h1 | h1 | h1 <;> subst h1 <;> simp at hc <;> subst hc <;> rfl
    · exact digit_not_space (hdig c hc)
  refine ⟨?_, hchar, ?_⟩
  · rw [hs]
    intro habs
    exact hne (List.append_eq_nil.mp habs).2
  · intro hmem
    have := hchar '\n' hmem
    simp [isSpaceChar] at this

theorem trimSpace_hint {s : Str} (hnospace : ∀ c ∈ s, isSpaceChar c = false) (hne : s ≠ []) :
    trimSpace (str " line:" ++ (s ++ ['\n'])) = lineColonTag ++ s := by
  obtain ⟨c₀, cs', hrev⟩ : ∃ c₀ cs', s.reverse = c₀ :: cs' := by
    cases hr : s.reverse with
    | nil => exact absurd (by simpa using congrArg List.reverse hr) hne
    | cons c cs => exact ⟨c, cs, rfl⟩
  have hc₀ : isSpaceChar c₀ = false := by
    refine hnospace c₀ ?_
    have : c₀ ∈ s.reverse := by rw [hrev]; simp
    simpa using this
  have hL : List.dropWhile isSpaceChar (str " line:" ++ (s ++ ['\n']))
      = lineColonTag ++ (s ++ ['\n']) := by
    rw [show str " line:" ++ (s ++ ['\n']) = ' ' :: 'l' :: (str "ine:" ++ (s ++ ['\n'])) from rfl]
    rw [show lineColonTag ++ (s ++ ['\n']) = 'l' :: (str "ine:" ++ (s ++ ['\n'])) from rfl]
    rw [List.dropWhile_cons, if_pos (by decide), List.dropWhile_cons, if_neg (by decide)]
  have hR : List.dropWhile isSpaceChar (lineColonTag ++ (s ++ ['\n'])).reverse
      = s.reverse ++ lineColonTag.reverse := by
    rw [show (lineColonTag ++ (s ++ ['\n'])).reverse
        = '\n' :: (s.reverse ++ lineColonTag.reverse) from by simp]
    rw [List.dropWhile_cons, if_pos (by decide)]
    rw [hrev, List.cons_append, List.dropWhile_cons, if_neg (by simp [hc₀])]
  show ((List.dropWhile isSpaceChar
      (str " line:" ++ (s ++ ['\n']))).reverse.dropWhile isSpaceChar).reverse = _
  rw [hL, hR]
  simp

theorem parse_mkDiffText {s : Str} {k : Int} (h : atoi s = some k) :
    Parse (mkDiffText s) = .ok [⟨k, str "x\n", str "y\n"⟩] := by
  obtain ⟨hne, hnospace, hnl⟩ := atoi_char_facts h
  have hPnl : '\n' ∉ (str "<<<<<<< SEARCH line:" ++ s) := by
    intro hm
    rcases List.mem_append.mp hm with hm | hm
    · revert hm; decide
    · exact hnl hm
  have hshape : mkDiffText s = (str "<<<<<<< SEARCH line:" ++ s)
      ++ '\n' :: (str "x\n=======\ny\n>>>>>>> REPLACE\n") := rfl
  have hsplit : trimSplit (mkDiffText s)
      = ((str "<<<<<<< SEARCH line:" ++ s) ++ ['\n'])
        :: [str "x\n", str "=======\n", str "y\n", str ">>>>>>> REPLACE\n"] := by
    rw [hshape, trimSplit_cons_line _ hPnl]
    rw [show trimSplit (str "x\n=======\ny\n>>>>>>> REPLACE\n")
        = [str "x\n", str "=======\n", str "y\n", str ">>>>>>> REPLACE\n"] from rfl]
  have hcl : classifyLine ((str "<<<<<<< SEARCH line:" ++ s) ++ ['\n']) 0
      = ⟨.startSearch, 0, (str "<<<<<<< SEARCH line:" ++ s) ++ ['\n']⟩ := by
    have hpre : startSearchMarker.isPrefixOf ((str "<<<<<<< SEARCH line:" ++ s) ++ ['\n'])
        = true := by
      rw [show (str "<<<<<<< SEARCH line:" ++ s) ++ ['\n']
          = startSearchMarker ++ (str " line:" ++ (s ++ ['\n'])) from by
        rw [← List.append_assoc, ← List.append_assoc]
        rfl]
      exact isPrefixOf_append_self _ _
    simp only [classifyLine, hpre, if_pos]
  have htok : tokenize (mkDiffText s)
      = ⟨.startSearch, 0, (str "<<<<<<< SEARCH line:" ++ s) ++ ['\n']⟩
        :: [⟨.text, 1, str "x\n"⟩, ⟨.textSeparator, 2, str "=======\n"⟩,
            ⟨.text, 3, str "y\n"⟩, ⟨.endReplace, 4, str ">>>>>>> REPLACE\n"⟩,
            ⟨.eof, 0, []⟩] := by
    rw [tokenize, hsplit]
    simp only [tokenizeLines]
    rw [hcl]
    rfl
  have hdp1 : dropPrefixOf (str "<<<<<<< SEARCH line:" ++ (s ++ ['\n'])) startSearchMarker
      = (str " line:" ++ (s ++ ['\n']), true) := by
    rw [show str "<<<<<<< SEARCH line:" ++ (s ++ ['\n'])
        = startSearchMarker ++ (str " line:" ++ (s ++ ['\n'])) from by
      rw [← List.append_assoc]
      rfl]
    exact dropPrefixOf_append _ _
  have hts := trimSpace_hint hnospace hne
  have hdp2 : dropPrefixOf (lineColonTag ++ s) lineColonTag = (s, true) :=
    dropPrefixOf_append _ _
  rw [Parse, htok]
  have hfuel : ∀ m : Nat, m + 2 = (m + 1) + 1 := fun _ => rfl
  simp only [hfuel]
  simp [parseLoop, parseDiff, parseStartSearch, skipBlank, collectText, pExpect, pRead,
    hdp1, hts, hdp2, h]

instance : DecidableRel disjointE := fun a b =>
  inferInstanceAs (Decidable (a.End ≤ b.Start ∨ b.End ≤ a.Start))

/-! ### Claim theorems -/

/-- Claim C1: the spec requires that a diff text whose replace body is not
followed by an end-replace marker is a parse error with no diffs returned.
The code instead discards that error (`return Diff{}, nil`): at this input
the replace body is followed by a second separator line, yet `Parse`
returns a single zero-valued diff and no error. -/
theorem c1_missing_terminator_discarded :
    Parse (str "<<<<<<< SEARCH line:1\na\n=======\nb\n=======\n")
      = .ok [⟨0, [], []⟩] := by
  rfl

/-- Claim C2, counterexample: two intersecting edits for which `Apply`
returns the invalid-range error, not the overlap error — the first splice
shrinks the document below the second edit's `End`. -/
theorem c2_overlap_counterexample :
    max (3 : Int) 2 < min (5 : Int) 4 ∧
    Apply (str "abcde") [⟨3, 5, []⟩, ⟨2, 4, str "x"⟩]
      = .error (.invalidRange 2 4) ∧
    isOverlapErr (.invalidRange 2 4) = false := by
  refine ⟨by decide, by rfl, rfl⟩

/-- Claim C2 (amended): for every document and every pair of edits whose
half-open ranges intersect, `Apply` fails with an error (and returns no
document) in either input order — the error is the overlap error unless a
range check fails first, in which case it is the invalid-range error. -/
theorem c2_intersecting_edits_error (d : Str) (e1 e2 : Edit)
    (h : max e1.Start e2.Start < min e1.End e2.End) :
    ∃ err, Apply d [e1, e2] = .error err :=
  apply_intersect_error d e1 e2 h

theorem c2_witness :
    max (1 : Int) 2 < min (3 : Int) 4 ∧
    ∃ err, Apply (str "abcd") [⟨1, 3, str "Z"⟩, ⟨2, 4, str "W"⟩] = .error err :=
  ⟨by decide, c2_intersecting_edits_error (str "abcd") ⟨1, 3, str "Z"⟩ ⟨2, 4, str "W"⟩ (by decide)⟩

/-- Claim C3, counterexample: two disjoint in-bounds edits (one with an
empty range) for which the two input orders give different results — one
order fails with an overlap error, the other succeeds. -/
theorem c3_permutation_counterexample :
    ([⟨1, 1, str "X"⟩, ⟨1, 2, str "Y"⟩] : List Edit).Perm
        [⟨1, 2, str "Y"⟩, ⟨1, 1, str "X"⟩] ∧
    List.Pairwise disjointE ([⟨1, 1, str "X"⟩, ⟨1, 2, str "Y"⟩] : List Edit) ∧
    (∀ e ∈ ([⟨1, 1, str "X"⟩, ⟨1, 2, str "Y"⟩] : List Edit),
      0 ≤ e.Start ∧ e.Start ≤ e.End ∧ e.End ≤ ((str "abc").length : Int)) ∧
    Apply (str "abc") [⟨1, 1, str "X"⟩, ⟨1, 2, str "Y"⟩] = .error (.overlap 1 2) ∧
    Apply (str "abc") [⟨1, 2, str "Y"⟩, ⟨1, 1, str "X"⟩] = .ok (str "aXYc") := by
  refine ⟨by decide, by decide, by decide, by rfl, by rfl⟩

/-- Claim C3 (amended): for every document and every list of edits with
non-empty (`Start < End`) pairwise-disjoint ranges within the document's
bounds, `Apply` succeeds and returns the same final document for every
permutation of the input edit list. -/
theorem c3_disjoint_perm_apply (d : Str) (l₁ l₂ : List Edit)
    (hperm : l₁.Perm l₂)
    (hb : ∀ e ∈ l₁, 0 ≤ e.Start ∧ e.Start < e.End ∧ e.End ≤ (d.length : Int))
    (hd : List.Pairwise disjointE l₁) :
    ∃ out, Apply d l₁ = .ok out ∧ Apply d l₂ = .ok out :=
  apply_disjoint_perm d hperm hb hd

theorem c3_witness :
    ([⟨0, 1, str "U"⟩, ⟨2, 3, str "V"⟩] : List Edit).Perm
        [⟨2, 3, str "V"⟩, ⟨0, 1, str "U"⟩] ∧
    ∃ out, Apply (str "abc") [⟨0, 1, str "U"⟩, ⟨2, 3, str "V"⟩] = .ok out ∧
      Apply (str "abc") [⟨2, 3, str "V"⟩, ⟨0, 1, str "U"⟩] = .ok out :=
  ⟨by decide,
    c3_disjoint_perm_apply (str "abc") [⟨0, 1, str "U"⟩, ⟨2, 3, str "V"⟩]
      [⟨2, 3, str "V"⟩, ⟨0, 1, str "U"⟩] (by decide) (by decide) (by decide)⟩

/-- Claim C4, counterexample: with an empty `Search` text the hypothesis
of the claim holds vacuously (zero lines starting at the clamped hint join
to the empty string), yet `Search` fails rather than succeeding. -/
theorem c4_exact_match_counterexample :
    chunkAt (docLines (str "a\n")) (clampedStart (str "a\n") ⟨1, [], str "x"⟩)
        (nSearch ⟨1, [], str "x"⟩) = Diff.Search ⟨1, [], str "x"⟩ ∧
    clampedStart (str "a\n") ⟨1, [], str "x"⟩ + nSearch ⟨1, [], str "x"⟩
        ≤ (docLines (str "a\n")).length ∧
    Search (str "a\n") ⟨1, [], str "x"⟩ 1 = none := by
  refine ⟨by rfl, by decide, by rfl⟩

/-- Claim C4 (amended): if `diff.Search` spans at least one line and the
document's lines joined from the clamped hinted start over `nSearch` lines
equal `diff.Search` byte-for-byte, then `Search` at threshold `1` succeeds
and returns exactly the byte offsets bounding that line range, with
`diff.Replace` as the text. -/
theorem c4_exact_match (source : Str) (diff : Diff)
    (hn : 1 ≤ nSearch diff)
    (hb : clampedStart source diff + nSearch diff ≤ (docLines source).length)
    (hc : chunkAt (docLines source) (clampedStart source diff) (nSearch diff) = diff.Search) :
    Search source diff 1 = some
      ⟨(offsetAt (docLines source) (clampedStart source diff) : Int),
       (offsetAt (docLines source) (clampedStart source diff + nSearch diff) : Int),
       diff.Replace⟩ := by
  have h := search_hit source diff hn hb hc
  simpa [candEdit] using h

theorem c4_witness :
    1 ≤ nSearch ⟨1, str "a\n", str "b"⟩ ∧
    Search (str "a\n") ⟨1, str "a\n", str "b"⟩ 1 = some ⟨0, 2, str "b"⟩ := by
  refine ⟨by decide, ?_⟩
  rw [c4_exact_match (str "a\n") ⟨1, str "a\n", str "b"⟩ (by decide) (by decide) (by rfl)]
  rfl

/-- Claim C5: threshold monotonicity.  If `Search` succeeds at threshold
`t1` then it succeeds at any `t2 ≤ t1`, returning the same candidate or
one earlier in the fixed search order (positions measured in the
candidate enumeration `searchCandidates`). -/
theorem c5_threshold_monotone (source : Str) (diff : Diff) (t1 t2 : ℚ) (e1 : Edit)
    (hts : t2 ≤ t1)
    (h1 : Search source diff t1 = some e1) :
    ∃ l1 l2 : Nat,
      e1 = candEdit (docLines source) diff.Replace (nSearch diff) l1 ∧
      Search source diff t2
        = some (candEdit (docLines source) diff.Replace (nSearch diff) l2) ∧
      (searchCandidates source diff).indexOf l2 ≤ (searchCandidates source diff).indexOf l1 := by
  have hfind := search_eq_find source diff t1
  rw [h1] at hfind
  simp only [firstAcceptIn] at hfind
  obtain ⟨l1, hl1, he1⟩ : ∃ l1, (searchCandidates source diff).find?
      (fun l => acceptCand (docLines source) diff.Search t1 (nSearch diff) l) = some l1 ∧
      e1 = candEdit (docLines source) diff.Replace (nSearch diff) l1 := by
    cases hf : (searchCandidates source diff).find?
        (fun l => acceptCand (docLines source) diff.Search t1 (nSearch diff) l) with
    | none => rw [hf] at hfind; simp at hfind
    | some l =>
      rw [hf] at hfind
      simp only [Option.map_some', Option.some_inj] at hfind
      exact ⟨l, rfl, hfind⟩
  have hmono : ∀ l, (fun l => acceptCand (docLines source) diff.Search t1 (nSearch diff) l) l
      = true →
      (fun l => acceptCand (docLines source) diff.Search t2 (nSearch diff) l) l = true := by
    intro l hl
    simp only [acceptCand, decide_eq_true_eq] at hl ⊢
    exact le_trans hts hl
  obtain ⟨l2, hl2, hidx⟩ := find?_mono_idx hmono _ l1 hl1
  refine ⟨l1, l2, he1, ?_, hidx⟩
  rw [search_eq_find source diff t2]
  simp only [firstAcceptIn, hl2, Option.map_some']

theorem c5_witness :
    (0 : ℚ) ≤ 1 ∧
    ∃ l1 l2 : Nat,
      candEdit (docLines (str "a\n")) (str "b") (nSearch ⟨1, str "a\n", str "b"⟩)
          (clampedStart (str "a\n") ⟨1, str "a\n", str "b"⟩)
        = candEdit (docLines (str "a\n")) (Diff.Replace ⟨1, str "a\n", str "b"⟩)
            (nSearch ⟨1, str "a\n", str "b"⟩) l1 ∧
      Search (str "a\n") ⟨1, str "a\n", str "b"⟩ 0
        = some (candEdit (docLines (str "a\n")) (Diff.Replace ⟨1, str "a\n", str "b"⟩)
            (nSearch ⟨1, str "a\n", str "b"⟩) l2) ∧
      (searchCandidates (str "a\n") ⟨1, str "a\n", str "b"⟩).indexOf l2
        ≤ (searchCandidates (str "a\n") ⟨1, str "a\n", str "b"⟩).indexOf l1 := by
  refine ⟨by norm_num, ?_⟩
  exact c5_threshold_monotone (str "a\n") ⟨1, str "a\n", str "b"⟩ 1 0 _ (by norm_num)
    (search_hit (str "a\n") ⟨1, str "a\n", str "b"⟩ (by decide) (by decide) (by rfl))

/-- Claim C6, counterexample: with search text spanning 4 of the
document's 5 lines and the hint at the last line, the loop's radius-0
probe is out of bounds in both directions, so `Search` gives up at once
and returns no match — while the claim's full enumeration (all in-bounds
candidates in above-then-below increasing-radius order) accepts the
verbatim match at line 1. -/
theorem c6_first_acceptable_counterexample :
    Search (str "a\nb\nc\nd\ne\n") ⟨4, str "b\nc\nd\ne\n", str "X"⟩ 1 = none ∧
    firstAcceptIn (searchOrderFull (str "a\nb\nc\nd\ne\n") ⟨4, str "b\nc\nd\ne\n", str "X"⟩)
        (str "a\nb\nc\nd\ne\n") ⟨4, str "b\nc\nd\ne\n", str "X"⟩ 1
      = some ⟨2, 10, str "X"⟩ := by
  constructor
  · rfl
  · have hfull : searchOrderFull (str "a\nb\nc\nd\ne\n") ⟨4, str "b\nc\nd\ne\n", str "X"⟩
        = [1, 0] := by rfl
    have hch : chunkAt (docLines (str "a\nb\nc\nd\ne\n"))
        1 (nSearch ⟨4, str "b\nc\nd\ne\n", str "X"⟩) = str "b\nc\nd\ne\n" := by rfl
    have hacc : acceptCand (docLines (str "a\nb\nc\nd\ne\n"))
        (Diff.Search ⟨4, str "b\nc\nd\ne\n", str "X"⟩) 1
        (nSearch ⟨4, str "b\nc\nd\ne\n", str "X"⟩) 1 = true := by
      simp only [acceptCand, decide_eq_true_eq]
      show similarity (chunkAt (docLines (str "a\nb\nc\nd\ne\n")) 1
        (nSearch ⟨4, str "b\nc\nd\ne\n", str "X"⟩)) (str "b\nc\nd\ne\n") ≥ 1
      rw [hch, similarity_self]
    simp only [firstAcceptIn, hfull]
    rw [List.find?_cons_of_pos _ hacc]
    rfl

/-- Claim C6 (amended): `Search` examines candidates in increasing radius
order, above-then-below at each radius, in-bounds candidates only, and
stops at the first radius at which neither direction is in bounds; it
returns the first candidate in that (truncated) order whose similarity
reaches the threshold. -/
theorem c6_search_order (source : Str) (diff : Diff) (t : ℚ) :
    Search source diff t = firstAcceptIn (searchOrderStopped source diff) source diff t := by
  rw [search_eq_find, searchCandidates_eq_stopped]

/-- Claim C7: the similarity used by the locator is `1` when both strings
are empty, and otherwise `1 - editDistance(a,b) / max(len(a), len(b))`
with `levDist` the standard byte-level insert/delete/substitute edit
distance (modelled from the spec, the levenshtein dependency not being
part of this repository). -/
theorem c7_similarity_formula (a b : Str) :
    similarity a b = if a.length = 0 ∧ b.length = 0 then 1
      else 1 - (levDist a b : ℚ) / (max a.length b.length : ℚ) := rfl

/-- Claim C8: any successful `Search` returns an edit with
`0 ≤ Start ≤ End ≤ len(document)`, whose `Start` and `End` are prefix-sum
byte offsets of line boundaries of the document, and whose `Text` is
`diff.Replace` verbatim. -/
theorem c8_search_result_invariants (source : Str) (diff : Diff) (t : ℚ) (e : Edit)
    (h : Search source diff t = some e) :
    0 ≤ e.Start ∧ e.Start ≤ e.End ∧ e.End ≤ (source.length : Int) ∧
    (∃ i j : Nat, i ≤ j ∧ j ≤ (docLines source).length ∧
      e.Start = (offsetAt (docLines source) i : Int) ∧
      e.End = (offsetAt (docLines source) j : Int)) ∧
    e.Text = diff.Replace := by
  have hf := search_eq_find source diff t
  rw [h] at hf
  simp only [firstAcceptIn] at hf
  obtain ⟨l, hl, he⟩ : ∃ l, (searchCandidates source diff).find?
      (fun l => acceptCand (docLines source) diff.Search t (nSearch diff) l) = some l ∧
      e = candEdit (docLines source) diff.Replace (nSearch diff) l := by
    cases hfind : (searchCandidates source diff).find?
        (fun l => acceptCand (docLines source) diff.Search t (nSearch diff) l) with
    | none => rw [hfind] at hf; simp at hf
    | some l =>
      rw [hfind] at hf
      simp only [Option.map_some', Option.some_inj] at hf
      exact ⟨l, rfl, hf⟩
  have hmem := List.mem_of_find?_eq_some hl
  have hbound := mem_searchCandidates_bound source diff l hmem
  have htot : offsetAt (docLines source) (docLines source).length = source.length := by
    rw [offsetAt_length]
    rw [show (docLines source).flatten = source from flatten_trimSplit source]
  subst he
  simp only [candEdit]
  refine ⟨?_, ?_, ?_, ?_, ?_⟩
  · exact Int.natCast_nonneg _
  · exact_mod_cast offsetAt_mono (docLines source) (by omega : l ≤ l + nSearch diff)
  · have h2 := offsetAt_mono (docLines source) hbound
    rw [htot] at h2
    exact_mod_cast h2
  · exact ⟨l, l + nSearch diff, by omega, hbound, rfl, rfl⟩
  · trivial

theorem c8_witness :
    Search (str "a\n") ⟨1, str "a\n", str "b"⟩ 1 = some ⟨0, 2, str "b"⟩ ∧
    (0 ≤ (⟨0, 2, str "b"⟩ : Edit).Start ∧
      (⟨0, 2, str "b"⟩ : Edit).Start ≤ (⟨0, 2, str "b"⟩ : Edit).End ∧
      (⟨0, 2, str "b"⟩ : Edit).End ≤ ((str "a\n").length : Int) ∧
      (∃ i j : Nat, i ≤ j ∧ j ≤ (docLines (str "a\n")).length ∧
        (⟨0, 2, str "b"⟩ : Edit).Start = (offsetAt (docLines (str "a\n")) i : Int) ∧
        (⟨0, 2, str "b"⟩ : Edit).End = (offsetAt (docLines (str "a\n")) j : Int)) ∧
      (⟨0, 2, str "b"⟩ : Edit).Text = Diff.Replace ⟨1, str "a\n", str "b"⟩) := by
  have h : Search (str "a\n") ⟨1, str "a\n", str "b"⟩ 1 = some ⟨0, 2, str "b"⟩ := by
    rw [search_hit (str "a\n") ⟨1, str "a\n", str "b"⟩ (by decide) (by decide) (by rfl)]
    rfl
  exact ⟨h, c8_search_result_invariants (str "a\n") ⟨1, str "a\n", str "b"⟩ 1 ⟨0, 2, str "b"⟩ h⟩

/-- Claim C9: the empty edit list is an identity for `Apply`: the document
is returned unchanged with no error. -/
theorem c9_apply_empty (d : Str) : Apply d [] = .ok d := rfl

/-- Claim C10: the `line:` hint accepts any (64-bit) integer, including
zero and negative values, with no range validation — a diff block whose
hint suffix is any string `atoi` accepts parses successfully with exactly
that integer as the hint — and `Search` clamps the hint into
`[0, lineCount-1]`, so on a non-empty document the clamped start is a
valid line index and every candidate range examined lies fully within the
document's line bounds. -/
theorem c10_hint_accepted_and_clamped :
    (∀ (s : Str) (k : Int), atoi s = some k →
      Parse (mkDiffText s) = .ok [⟨k, str "x\n", str "y\n"⟩]) ∧
    (∀ (source : Str) (diff : Diff), docLines source ≠ [] →
      clampedStart source diff < (docLines source).length ∧
      ∀ l ∈ searchCandidates source diff, l + nSearch diff ≤ (docLines source).length) := by
  constructor
  · intro s k h
    exact parse_mkDiffText h
  · intro source diff hne
    have hlen : 1 ≤ (docLines source).length := by
      cases hd : docLines source with
      | nil => exact absurd hd hne
      | cons a as => simp [hd]
    constructor
    · have hle : max 0 (min (diff.Line - 1) (((docLines source).length : Int) - 1))
          ≤ ((docLines source).length : Int) - 1 := by
        apply max_le
        · omega
        · exact min_le_right _ _
      simp only [clampedStart]
      omega
    · exact mem_searchCandidates_bound source diff

theorem c10_witness :
    atoi (str "-3") = some (-3) ∧
    Parse (mkDiffText (str "-3")) = .ok [⟨-3, str "x\n", str "y\n"⟩] ∧
    atoi (str "0") = some 0 ∧
    Parse (mkDiffText (str "0")) = .ok [⟨0, str "x\n", str "y\n"⟩] ∧
    docLines (str "a\nb\n") ≠ [] ∧
    clampedStart (str "a\nb\n") ⟨-7, str "a\n", str "z"⟩ < (docLines (str "a\nb\n")).length :=
  ⟨by rfl,
   c10_hint_accepted_and_clamped.1 (str "-3") (-3) (by rfl),
   by rfl,
   c10_hint_accepted_and_clamped.1 (str "0") 0 (by rfl),
   by decide,
   (c10_hint_accepted_and_clamped.2 (str "a\nb\n") ⟨-7, str "a\n", str "z"⟩ (by decide)).1⟩
